import Mathlib

/-!
# Verification of the `kiwi` file-based job queue (`src/lib/main.ts`)

A shallow embedding of the queue engine of the `kiwi` library.  Jobs are
files; directory membership is queue state.  We model:

* the filename allocator `getUniqueFilename` (timestamp + 20-digit
  zero-padded shared counter, bounded collision retry);
* directory listings (`getFilesInDirectory`: filter `*.json`, sort) and the
  claim of the next job (`getNextJobFilePath`: first element of the sorted
  listing);
* the worker retry loop of `runJob` (a do/while driven by
  `retries < 0 || tryCount <= retries`, where the `boolean | number`
  option value is numerically coerced as in JavaScript);
* the terminal transition `cleanJobFile` (delete vs. move to the
  `success` / `fail` directory);
* the dispatch entry point `runNextJob` (errors caught and logged at the
  loop boundary, `currentJob` single-flight guard);
* the event surface (`idle`, `onJobFinished`);
* the startup recovery `restoreCurrentFileIntoIdleDirectory`
  (`fs.move` with `overwrite: false`);
* `add` and `init` (directory creation);
* the class-level (`static`) mutex / counter sharing across instances.

Filenames are modelled as lists of UTF-16 code units (`List Nat`), which is
what JavaScript's default `Array.prototype.sort` compares.
-/

/-- A filename, as the list of its UTF-16 code units. -/
abbrev FName := List Nat

/-- Code units of the extension `".json"` appended by the allocator and
tested by the `x.endsWith('.json')` filter. -/
def jsonExt : List Nat := [46, 106, 115, 111, 110]

/-- `x.endsWith('.json')`: the last five code units are `".json"`. -/
def endsWithJson (f : FName) : Bool :=
  5 ≤ f.length && f.drop (f.length - 5) == jsonExt

theorem endsWithJson_append (x : List Nat) : endsWithJson (x ++ jsonExt) = true := by
  have hlen : (x ++ jsonExt).length = x.length + 5 := by
    simp [jsonExt]
  have hdrop : (x ++ jsonExt).drop x.length = jsonExt := List.drop_left x jsonExt
  simp only [endsWithJson, hlen, Nat.add_sub_cancel, hdrop]
  simp

/-- The zero-padded base-10 digits of `n`, most significant first, written
with exactly `k` digits (the value of `numeral(n).format('0' * k)` for
`n < 10 ^ k`). -/
def padDigits : Nat → Nat → List Nat
  | 0, _ => []
  | k + 1, n => n / 10 ^ k :: padDigits k (n % 10 ^ k)

theorem padDigits_length (k n : Nat) : (padDigits k n).length = k := by
  induction k generalizing n with
  | zero => rfl
  | succ k ih => simp [padDigits, ih]

/-- Zero-padding to a common width is strictly monotone for the
lexicographic order on digit lists. -/
theorem padDigits_lex {k n₁ n₂ : Nat} (h₁₂ : n₁ < n₂) (h₂ : n₂ < 10 ^ k) :
    List.Lex (· < ·) (padDigits k n₁) (padDigits k n₂) := by
  induction k generalizing n₁ n₂ with
  | zero => omega
  | succ k ih =>
    have hm : 0 < 10 ^ k := Nat.pos_pow_of_pos k (by omega)
    have hdiv : n₁ / 10 ^ k ≤ n₂ / 10 ^ k := Nat.div_le_div_right h₁₂.le
    rcases Nat.lt_or_ge (n₁ / 10 ^ k) (n₂ / 10 ^ k) with hlt | hge
    · exact List.Lex.rel hlt
    · have heq : n₁ / 10 ^ k = n₂ / 10 ^ k := le_antisymm hdiv hge
      have h₁ := Nat.div_add_mod n₁ (10 ^ k)
      have h₂' := Nat.div_add_mod n₂ (10 ^ k)
      rw [heq] at h₁
      have hmodlt : n₁ % 10 ^ k < n₂ % 10 ^ k := by omega
      have hmodbound : n₂ % 10 ^ k < 10 ^ k := Nat.mod_lt _ hm
      have := ih hmodlt hmodbound
      simpa [padDigits, heq] using List.Lex.cons this

/-- Mapping a strictly monotone shift over code units preserves the
lexicographic order. -/
theorem lex_map_add {l₁ l₂ : List Nat} (c : Nat)
    (h : List.Lex (· < ·) l₁ l₂) :
    List.Lex (· < ·) (l₁.map (fun d => c + d)) (l₂.map (fun d => c + d)) := by
  induction h with
  | nil => exact List.Lex.nil
  | cons _ ih => exact List.Lex.cons ih
  | rel h => exact List.Lex.rel (Nat.add_lt_add_left h c)

/-- Lexicographic comparison of equal-length lists is preserved by
appending arbitrary tails. -/
theorem lex_append_of_length_eq : ∀ {l₁ l₂ : List Nat} (t₁ t₂ : List Nat),
    l₁.length = l₂.length → List.Lex (· < ·) l₁ l₂ →
    List.Lex (· < ·) (l₁ ++ t₁) (l₂ ++ t₂)
  | _, _, _, _, hlen, List.Lex.nil => by simp at hlen
  | _ :: _, _ :: _, t₁, t₂, hlen, List.Lex.cons h =>
    List.Lex.cons (lex_append_of_length_eq t₁ t₂ (by simpa using hlen) h)
  | _ :: _, _ :: _, _, _, _, List.Lex.rel h => List.Lex.rel h

/-- The counter field of an allocated filename:
`numeral(Kiwi.fileId).format('00000000000000000000')`, i.e. the 20
zero-padded decimal digits of the counter, as code units
(digit `d` is code unit `48 + d`). -/
def counterField (n : Nat) : List Nat := (padDigits 20 n).map (fun d => 48 + d)

/-- The basename produced by `getUniqueFilename` for timestamp code units
`t` (the value of `moment().format('YYYY-MM-DD-HH-mm-ss-')`) and counter
value `n`: `t ++ digits ++ ".json"`. -/
def allocName (t : List Nat) (n : Nat) : FName := t ++ (counterField n ++ jsonExt)

theorem endsWithJson_allocName (t : List Nat) (n : Nat) :
    endsWithJson (allocName t n) = true := by
  have : allocName t n = (t ++ counterField n) ++ jsonExt := by
    simp [allocName, List.append_assoc]
  rw [this]
  exact endsWithJson_append _

/-- Strict order on filenames: lexicographic comparison of code units, the
order used by JavaScript's default `Array.prototype.sort`. -/
def fnameLt (a b : FName) : Prop := List.Lex (· < ·) a b

/-- Reflexive closure of `fnameLt`. -/
def fnameLe (a b : FName) : Prop := a = b ∨ fnameLt a b

instance : DecidableRel fnameLt := fun a b =>
  inferInstanceAs (Decidable (List.Lex (· < ·) a b))

instance : DecidableRel fnameLe := fun a b =>
  inferInstanceAs (Decidable (a = b ∨ fnameLt a b))

theorem fnameLt_trans : ∀ {a b c : FName}, fnameLt a b → fnameLt b c → fnameLt a c
  | _, _, _, List.Lex.nil, List.Lex.cons _ => List.Lex.nil
  | _, _, _, List.Lex.nil, List.Lex.rel _ => List.Lex.nil
  | _, _, _, List.Lex.cons h₁, List.Lex.cons h₂ =>
    List.Lex.cons (fnameLt_trans h₁ h₂)
  | _, _, _, List.Lex.cons _, List.Lex.rel h₂ => List.Lex.rel h₂
  | _, _, _, List.Lex.rel h₁, List.Lex.cons _ => List.Lex.rel h₁
  | _, _, _, List.Lex.rel h₁, List.Lex.rel h₂ => List.Lex.rel (Nat.lt_trans h₁ h₂)

theorem fnameLt_irrefl : ∀ (a : FName), ¬fnameLt a a
  | _ :: _, List.Lex.cons h => fnameLt_irrefl _ h
  | _ :: _, List.Lex.rel h => Nat.lt_irrefl _ h

instance : IsTrans FName fnameLe where
  trans a b c hab hbc := by
    rcases hab with rfl | hab
    · exact hbc
    · rcases hbc with rfl | hbc
      · exact Or.inr hab
      · exact Or.inr (fnameLt_trans hab hbc)

instance : IsTotal FName fnameLe where
  total a b := by
    rcases trichotomous_of (List.Lex (α := Nat) (· < ·)) a b with h | h | h
    · exact Or.inl (Or.inr h)
    · exact Or.inl (Or.inl h)
    · exact Or.inr (Or.inr h)

/-- `allocName` is strictly monotone: a later allocation (larger counter,
same-or-later timestamp of the same textual length) yields a strictly
larger filename. -/
theorem allocName_lt {t₁ t₂ : List Nat} {n₁ n₂ : Nat}
    (hlen : t₁.length = t₂.length) (hts : fnameLe t₁ t₂)
    (hn : n₁ < n₂) (hb : n₂ < 10 ^ 20) :
    fnameLt (allocName t₁ n₁) (allocName t₂ n₂) := by
  have hinner : List.Lex (· < ·) (counterField n₁ ++ jsonExt) (counterField n₂ ++ jsonExt) := by
    apply lex_append_of_length_eq
    · simp [counterField, padDigits_length]
    · exact lex_map_add 48 (padDigits_lex hn hb)
  rcases hts with rfl | hts
  · exact List.Lex.append_left _ hinner t₁
  · exact lex_append_of_length_eq _ _ hlen hts

instance : IsTrans FName fnameLt := ⟨fun _ _ _ => fnameLt_trans⟩

/-- `getFilesInDirectory`: `fs.readdir` of a directory, returning `false`
(here `none`) when the raw listing is empty, otherwise the listing filtered
to `*.json` entries and sorted (`files.filter(x => x.endsWith('.json')).sort()`). -/
def getFilesInDirectory (files : List FName) : Option (List FName) :=
  if files.length = 0 then none
  else some (List.insertionSort fnameLe (files.filter endsWithJson))

/-- `getNextJobFilePath`: the first entry of the sorted pending listing
(`files && files.length > 0 && path.join(this.idlePath, files[0])`). -/
def getNextJobFilePath (files : List FName) : Option FName :=
  match getFilesInDirectory files with
  | none => none
  | some fs => fs.head?

/-- One job is claimed (`getNextJobFilePath`), run, and its file leaves the
pending directory; `drainFuel` iterates this until no claimable file is
left, recording the order in which jobs are started. -/
def drainFuel : Nat → List FName → List FName
  | 0, _ => []
  | fuel + 1, files =>
    match getNextJobFilePath files with
    | none => []
    | some f => f :: drainFuel fuel (files.erase f)

/-- The order in which the dispatch loop starts the jobs whose files are in
the pending directory `files`. -/
def drain (files : List FName) : List FName := drainFuel files.length files

theorem drainFuel_of_sorted : ∀ (fuel : Nat) (l : List FName),
    l.length ≤ fuel → l.Pairwise fnameLt → (∀ f ∈ l, endsWithJson f = true) →
    drainFuel fuel l = l
  | _, [], _, _, _ => by cases ‹Nat› <;> rfl
  | fuel + 1, f :: rest, hlen, hpw, hjson => by
    have hfilter : (f :: rest).filter endsWithJson = f :: rest :=
      List.filter_eq_self.mpr (by simpa using hjson)
    have hsorted : List.Sorted fnameLe (f :: rest) :=
      hpw.imp (fun h => Or.inr h)
    have hnext : getNextJobFilePath (f :: rest) = some f := by
      simp [getNextJobFilePath, getFilesInDirectory, hfilter,
        hsorted.insertionSort_eq]
    rw [drainFuel, hnext]
    show f :: drainFuel fuel ((f :: rest).erase f) = f :: rest
    rw [List.erase_cons_head,
      drainFuel_of_sorted fuel rest (by simpa using hlen) hpw.of_cons
        (fun g hg => hjson g (List.mem_cons_of_mem _ hg))]

/-- Filenames allocated by a run of `add` calls: the `i`-th enqueue reads
timestamp `ts[i]` and pre-increments the shared counter, so it is named
`allocName ts[i] (c + i + 1)`. -/
def allocRun : List (List Nat) → Nat → List FName
  | [], _ => []
  | t :: ts, c => allocName t (c + 1) :: allocRun ts (c + 1)

theorem allocRun_endsWithJson : ∀ (ts : List (List Nat)) (c : Nat),
    ∀ f ∈ allocRun ts c, endsWithJson f = true
  | _ :: ts, c, f, hf => by
    rcases List.mem_cons.mp hf with rfl | hf
    · exact endsWithJson_allocName _ _
    · exact allocRun_endsWithJson ts (c + 1) f hf

theorem allocRun_length (ts : List (List Nat)) (c : Nat) :
    (allocRun ts c).length = ts.length := by
  induction ts generalizing c with
  | nil => rfl
  | cons t ts ih => simp [allocRun, ih]

theorem allocRun_chain' (L : Nat) : ∀ (ts : List (List Nat)) (c : Nat),
    (∀ t ∈ ts, t.length = L) → ts.Chain' fnameLe → c + ts.length < 10 ^ 20 →
    (allocRun ts c).Chain' fnameLt
  | [], _, _, _, _ => List.chain'_nil
  | [_], _, _, _, _ => List.chain'_singleton _
  | t₁ :: t₂ :: ts, c, hL, hch, hc => by
    rw [allocRun, allocRun]
    refine List.chain'_cons.mpr ⟨?_, ?_⟩
    · refine allocName_lt ?_ (List.chain'_cons.mp hch).1 (by omega) ?_
      · rw [hL t₁ (by simp), hL t₂ (by simp)]
      · simp only [List.length_cons] at hc; omega
    · have h := allocRun_chain' L (t₂ :: ts) (c + 1)
        (fun t ht => hL t (List.mem_cons_of_mem _ ht))
        (List.chain'_cons.mp hch).2
        (by simp only [List.length_cons] at hc ⊢; omega)
      simpa [allocRun] using h

theorem getNextJobFilePath_min (files : List FName) (f : FName)
    (hf : getNextJobFilePath files = some f) :
    ∀ g ∈ files, endsWithJson g = true → fnameLe f g := by
  intro g hg hgj
  unfold getNextJobFilePath getFilesInDirectory at hf
  by_cases hemp : files.length = 0
  · simp [hemp] at hf
  · simp only [hemp, if_false] at hf
    have hsorted := List.sorted_insertionSort fnameLe (files.filter endsWithJson)
    have hgs : g ∈ List.insertionSort fnameLe (files.filter endsWithJson) := by
      rw [List.mem_insertionSort, List.mem_filter]
      exact ⟨hg, hgj⟩
    cases hcase : List.insertionSort fnameLe (files.filter endsWithJson) with
    | nil => rw [hcase] at hgs; simp at hgs
    | cons a s' =>
      rw [hcase] at hf hgs hsorted
      simp only [List.head?_cons, Option.some.injEq] at hf
      subst hf
      rcases List.mem_cons.mp hgs with rfl | hgs'
      · exact Or.inl rfl
      · exact List.rel_of_sorted_cons hsorted g hgs'

/-- Code units of the timestamp `"2020-01-01-00-00-00-"`, a concrete value
of `moment().format('YYYY-MM-DD-HH-mm-ss-')` (length 20). -/
def tsEx : List Nat := [50, 48, 50, 48, 45, 48, 49, 45, 48, 49, 45, 48, 48, 45, 48, 48, 45, 48, 48, 45]

/-- **C1.** For every sequence of enqueue calls (timestamps non-decreasing,
of a common textual length, counter within the 20-digit range), the
allocator produces strictly lexicographically increasing names, every claim
picks the lexicographically smallest pending `*.json` file, and the
dispatch loop therefore starts the jobs in exactly enqueue order. -/
theorem c1_jobs_start_in_insertion_order (ts : List (List Nat)) (c L : Nat)
    (hL : ∀ t ∈ ts, t.length = L) (hts : ts.Chain' fnameLe)
    (hc : c + ts.length < 10 ^ 20) :
    (allocRun ts c).Pairwise fnameLt ∧
      drain (allocRun ts c) = allocRun ts c ∧
      (∀ (files : List FName) (f : FName), getNextJobFilePath files = some f →
        ∀ g ∈ files, endsWithJson g = true → fnameLe f g) := by
  have hpw : (allocRun ts c).Pairwise fnameLt :=
    List.chain'_iff_pairwise.mp (allocRun_chain' L ts c hL hts hc)
  refine ⟨hpw, ?_, getNextJobFilePath_min⟩
  exact drainFuel_of_sorted _ _ (by rw [allocRun_length]) hpw
    (allocRun_endsWithJson ts c)

/-- Witness for C1: two enqueues at the same timestamp are started in
enqueue order. -/
theorem c1_witness :
    (allocRun [tsEx, tsEx] 0).Pairwise fnameLt ∧
      drain (allocRun [tsEx, tsEx] 0) = allocRun [tsEx, tsEx] 0 ∧
      (∀ (files : List FName) (f : FName), getNextJobFilePath files = some f →
        ∀ g ∈ files, endsWithJson g = true → fnameLe f g) :=
  c1_jobs_start_in_insertion_order [tsEx, tsEx] 0 20
    (by decide)
    (List.chain'_cons.mpr ⟨Or.inl rfl, List.chain'_singleton _⟩)
    (by decide)

/-- The `retries` constructor option (`boolean | number`, default `3`). -/
inductive RetriesOpt
  | num (n : Int)
  | bool (b : Bool)

/-- JavaScript's numeric coercion of the `retries` value, as performed by
the comparisons `this.options.retries < 0` and
`job.tryCount <= this.options.retries` (`true` coerces to 1, `false`
to 0). -/
def RetriesOpt.toNum : RetriesOpt → Int
  | num n => n
  | bool b => if b then 1 else 0

/-- Events emitted by the queue (`job:success`, `job:fail`, `job:finished`,
`queue:idle`) together with a marker for a `log('warning', ...)` call. -/
inductive Event
  | jobSuccess
  | jobFail
  | jobFinished
  | queueIdle
  | logWarn
deriving DecidableEq, Repr

/-- The worker retry loop of `runJob`:

```
job.tryCount = 0;
do {
  try { job.result = await this.worker(job); job.success = true; }
  catch (e) { job.success = false; job.tryCount++; }
} while (!job.success &&
         (this.options.retries < 0 || job.tryCount <= this.options.retries));
```

`worker n` is the outcome of the `n`-th invocation (counting from 0;
`true` = the worker returned, `false` = it threw).  The result is
`(job.success, job.tryCount, number of invocations)`; `none` models
divergence (the loop never exiting within `fuel` iterations). -/
def retryLoop (worker : Nat → Bool) (retries : RetriesOpt) :
    Nat → Nat → Nat → Option (Bool × Nat × Nat)
  | 0, _, _ => none
  | fuel + 1, tryCount, invoked =>
    if worker invoked then some (true, tryCount, invoked + 1)
    else
      if retries.toNum < 0 ∨ ((tryCount + 1 : Nat) : Int) ≤ retries.toNum then
        retryLoop worker retries fuel (tryCount + 1) (invoked + 1)
      else some (false, tryCount + 1, invoked + 1)

/-- The tail of `runJob` after the retry loop: on success emit
`job:success`, otherwise emit `job:fail` (no exception is thrown), then
always emit `job:finished`. -/
def runJobEvents (worker : Nat → Bool) (retries : RetriesOpt) (fuel : Nat) :
    Option (List Event) :=
  match retryLoop worker retries fuel 0 0 with
  | none => none
  | some (success, _, _) =>
    some ((if success then [Event.jobSuccess] else [Event.jobFail]) ++ [Event.jobFinished])

theorem retryLoop_fuel_mono (worker : Nat → Bool) (retries : RetriesOpt) :
    ∀ (fuel tryCount invoked : Nat) (res : Bool × Nat × Nat),
      retryLoop worker retries fuel tryCount invoked = some res →
      ∀ m, retryLoop worker retries (fuel + m) tryCount invoked = some res := by
  intro fuel
  induction fuel with
  | zero => intro _ _ _ h; simp [retryLoop] at h
  | succ fuel ih =>
    intro tryCount invoked res h m
    rw [Nat.add_right_comm]
    rw [retryLoop] at h ⊢
    by_cases hw : worker invoked = true
    · rw [if_pos hw] at h ⊢
      exact h
    · rw [if_neg hw] at h ⊢
      by_cases hcond : retries.toNum < 0 ∨ ((tryCount + 1 : Nat) : Int) ≤ retries.toNum
      · rw [if_pos hcond] at h ⊢
        exact ih _ _ _ h m
      · rw [if_neg hcond] at h ⊢
        exact h

/-- **C2.** With the numeric option `retries = 3`, a worker that throws on
every invocation is invoked exactly 4 times before the job is marked
failed; with `retries = 0`, exactly once.  After the final failure a
`job:fail` event (followed by `job:finished`) is emitted rather than an
exception being thrown. -/
theorem c2_retry_budget_invocation_count (w : Nat → Bool) (hw : ∀ n, w n = false)
    (fuel : Nat) (hf : 5 ≤ fuel) :
    retryLoop w (.num 3) fuel 0 0 = some (false, 4, 4) ∧
      retryLoop w (.num 0) fuel 0 0 = some (false, 1, 1) ∧
      runJobEvents w (.num 3) fuel = some [Event.jobFail, Event.jobFinished] := by
  have hwe : w = fun _ => false := funext hw
  subst hwe
  obtain ⟨m, rfl⟩ : ∃ m, fuel = 5 + m := ⟨fuel - 5, by omega⟩
  have h3 : retryLoop (fun _ => false) (.num 3) (5 + m) 0 0 = some (false, 4, 4) :=
    retryLoop_fuel_mono _ _ 5 0 0 _ (by decide) m
  have h0 : retryLoop (fun _ => false) (.num 0) (5 + m) 0 0 = some (false, 1, 1) :=
    retryLoop_fuel_mono _ _ 5 0 0 _ (by decide) m
  refine ⟨h3, h0, ?_⟩
  rw [runJobEvents, h3]
  rfl

/-- Witness for C2 at the always-throwing worker with fuel 5. -/
theorem c2_witness :
    retryLoop (fun _ => false) (.num 3) 5 0 0 = some (false, 4, 4) ∧
      retryLoop (fun _ => false) (.num 0) 5 0 0 = some (false, 1, 1) ∧
      runJobEvents (fun _ => false) (.num 3) 5 = some [Event.jobFail, Event.jobFinished] :=
  c2_retry_budget_invocation_count (fun _ => false) (fun _ => rfl) 5 (by decide)

/-- **C3** (code behaviour at the claim's failing input).  With the numeric
option `retries = 0` the loop guard `retries < 0 || tryCount <= retries` is
false after the first failure, so an always-throwing worker is invoked
exactly once and the job is marked failed — the loop does give up,
contradicting the claimed unlimited retries (the option doc comment
`0 = infinite retry`).  With the configured `retries = false` ("no
retries") the first failure is likewise terminal, as the claim states. -/
theorem c3_retries_zero_gives_up_after_one_invocation :
    retryLoop (fun _ => false) (.num 0) 100 0 0 = some (false, 1, 1) ∧
      retryLoop (fun _ => false) (.bool false) 100 0 0 = some (false, 1, 1) ∧
      runJobEvents (fun _ => false) (.num 0) 100 = some [Event.jobFail, Event.jobFinished] := by
  refine ⟨by decide, by decide, ?_⟩
  have h : retryLoop (fun _ => false) (.num 0) 100 0 0 = some (false, 1, 1) := by decide
  rw [runJobEvents, h]
  rfl

/-- Unlimited retry actually requires a negative numeric `retries` value:
with `retries = -1` the loop never exits, for any fuel. -/
theorem retryLoop_negative_retries_diverges (fuel : Nat) :
    ∀ tryCount invoked, retryLoop (fun _ => false) (.num (-1)) fuel tryCount invoked = none := by
  induction fuel with
  | zero => intro _ _; rfl
  | succ fuel ih =>
    intro tryCount invoked
    rw [retryLoop]
    rw [if_neg (by simp), if_pos (by left; simp [RetriesOpt.toNum])]
    exact ih _ _

/-- `idle()`:

```
return new Promise(resolve => { this.once('queue:idle', resolve); });
```

The returned promise resolves exactly when a `queue:idle` event is emitted
after the call; the current queue state is not consulted. `later` is the
sequence of events emitted after the subscription. -/
def idleResolves (later : List Event) : Bool :=
  decide (Event.queueIdle ∈ later)

/-- Modelled from the spec: the behaviour C4 claims for `idle()` — "the
implementation checks current emptiness in addition to subscribing", so the
promise also resolves when the queue is already idle at call time. -/
def idleResolvesClaimed (pendingEmptyNow : Bool) (later : List Event) : Bool :=
  pendingEmptyNow || decide (Event.queueIdle ∈ later)

/-- `onJobFinished`: after a job finishes, emit `queue:idle` if the pending
directory is empty, otherwise schedule another `runNextJob`.  Returns
(events emitted, whether a next run was scheduled). -/
def onJobFinished (pendingEmpty : Bool) : List Event × Bool :=
  if pendingEmpty then ([Event.queueIdle], false) else ([], true)

/-- **C4** (counterexample).  A queue that is already idle when `idle()` is
called — pending empty, no job in flight, so no event is ever emitted
afterwards — leaves the promise unresolved: the implementation only
subscribes and does not check current emptiness, contrary to the claimed
behaviour (which would resolve). -/
theorem c4_counterexample_idle_misses_signal :
    idleResolves [] = false ∧ idleResolvesClaimed true [] = true := by
  decide

/-- **C4** (amended).  `idle()` only subscribes: the promise resolves
exactly when a `queue:idle` event is emitted after the call.  `queue:idle`
is emitted by `onJobFinished` when a job finishes with the pending
directory empty, so a waiter present while jobs drain is woken; but a call
made while the queue is already idle never resolves unless a later job
finishes. -/
theorem c4_amended_idle_only_subscribes : ∀ (later : List Event),
    (idleResolves later = true ↔ Event.queueIdle ∈ later) ∧
      idleResolves (onJobFinished true).1 = true ∧
      idleResolves (onJobFinished false).1 = false := by
  intro later
  refine ⟨?_, by decide, by decide⟩
  simp [idleResolves]

/-- The four queue directories (`DIR_NAMES = ['current', 'idle', 'success',
'fail']`), each as the list of basenames it contains. -/
structure Dirs where
  current : List FName
  idle : List FName
  success : List FName
  fail : List FName
deriving DecidableEq, Repr

/-- Filesystem errors: `fs.move` with `overwrite: false` onto an existing
destination rejects with "dest already exists"; `io` stands for any other
I/O failure. -/
inductive FsErr
  | destExists
  | io
deriving DecidableEq, Repr

/-- The `for (const file of files) await fs.move(current/file, idle/file,
{ overwrite: false })` loop of `restoreCurrentFileIntoIdleDirectory`.
`fs.move` with `overwrite: false` rejects when the destination exists, and
the rejection propagates out of the loop. -/
def restoreLoop : List FName → Dirs → Except FsErr Dirs
  | [], d => .ok d
  | f :: rest, d =>
    if f ∈ d.idle then .error .destExists
    else restoreLoop rest
      { d with current := d.current.erase f, idle := d.idle ++ [f] }

/-- `restoreCurrentFileIntoIdleDirectory`: list the `current` directory
(filtered to `*.json`, sorted) and move each file back into `idle`. -/
def restoreCurrentFileIntoIdleDirectory (d : Dirs) : Except FsErr Dirs :=
  match getFilesInDirectory d.current with
  | none => .ok d
  | some files => restoreLoop files d

/-- Concrete filename `"a.json"`. -/
def nmA : FName := [97, 46, 106, 115, 111, 110]

/-- Concrete filename `"b.json"`. -/
def nmB : FName := [98, 46, 106, 115, 111, 110]

/-- Concrete filename `"c.txt"` (not queue-managed). -/
def nmTxt : FName := [99, 46, 116, 120, 116]

theorem restoreLoop_ok : ∀ (files : List FName) (d : Dirs),
    files.Nodup → (∀ f ∈ files, f ∉ d.idle) →
    restoreLoop files d =
      .ok ⟨d.current.diff files, d.idle ++ files, d.success, d.fail⟩
  | [], d, _, _ => by simp [restoreLoop]
  | f :: rest, d, hnd, hni => by
    rw [restoreLoop, if_neg (hni f (List.mem_cons_self f rest))]
    rw [restoreLoop_ok rest _ hnd.of_cons ?hrest]
    case hrest =>
      intro g hg
      rw [List.mem_append]
      push_neg
      refine ⟨hni g (List.mem_cons_of_mem _ hg), ?_⟩
      simp only [List.mem_singleton]
      exact (List.nodup_cons.mp hnd).1 ∘ (fun h => h ▸ hg)
    simp [List.diff_cons, List.append_assoc]

/-- **C5** (counterexample).  Restore with `current = [a.json, b.json]` and
a colliding pending file `a.json`: the `fs.move(..., { overwrite: false })`
rejects, the rejection propagates out of `_init`, and `b.json` is never
restored — the collision is fatal to initialization, not a non-fatal
skip. -/
theorem c5_counterexample_collision_fatal :
    restoreCurrentFileIntoIdleDirectory ⟨[nmA, nmB], [nmA], [], []⟩ =
      .error .destExists := by
  rfl

/-- **C5** (amended).  During initialization with restore mode enabled,
every `*.json` file found in the running (`current`) directory is moved
back into pending (`idle`) preserving its filename, and `success` / `fail`
are not touched — provided no pending file with the same name exists.  A
pending file is never overwritten, but a name collision is fatal: the move
rejects, initialization fails with that error, and later files are not
restored. -/
theorem c5_amended_restore (d : Dirs)
    (hnd : d.current.Nodup)
    (hnc : ∀ f ∈ d.current, endsWithJson f = true → f ∉ d.idle) :
    ∃ d', restoreCurrentFileIntoIdleDirectory d = .ok d' ∧
      d'.idle = d.idle ++ List.insertionSort fnameLe (d.current.filter endsWithJson) ∧
      d'.current = d.current.filter (fun f => !endsWithJson f) ∧
      d'.success = d.success ∧ d'.fail = d.fail := by
  unfold restoreCurrentFileIntoIdleDirectory getFilesInDirectory
  by_cases hemp : d.current.length = 0
  · rw [if_pos hemp]
    have hnil : d.current = [] := List.eq_nil_of_length_eq_zero hemp
    exact ⟨d, rfl, by simp [hnil], by simp [hnil], rfl, rfl⟩
  · rw [if_neg hemp]
    set files := List.insertionSort fnameLe (d.current.filter endsWithJson) with hfiles
    have hperm : List.Perm files (d.current.filter endsWithJson) :=
      List.perm_insertionSort fnameLe _
    have hndf : files.Nodup := hperm.nodup_iff.mpr (hnd.filter _)
    have hmemf : ∀ f ∈ files, f ∈ d.current ∧ endsWithJson f = true := by
      intro f hf
      have := hperm.mem_iff.mp hf
      rw [List.mem_filter] at this
      exact this
    have hok := restoreLoop_ok files d hndf
      (fun f hf => hnc f (hmemf f hf).1 (hmemf f hf).2)
    refine ⟨_, hok, rfl, ?_, rfl, rfl⟩
    show d.current.diff files = d.current.filter (fun f => !endsWithJson f)
    rw [hnd.diff_eq_filter]
    refine List.filter_congr ?_
    intro x hx
    by_cases hj : endsWithJson x = true
    · simp [hperm.mem_iff, List.mem_filter, hx, hj]
    · simp only [Bool.not_eq_true] at hj
      simp [hperm.mem_iff, List.mem_filter, hj]

/-- Witness for the amended C5: one restorable job file and one non-json
file in `current`, one unrelated pending file. -/
theorem c5_amended_witness :
    ∃ d', restoreCurrentFileIntoIdleDirectory ⟨[nmB, nmTxt], [nmA], [], []⟩ = .ok d' ∧
      d'.idle = [nmA] ++ List.insertionSort fnameLe ([nmB, nmTxt].filter endsWithJson) ∧
      d'.current = [nmB, nmTxt].filter (fun f => !endsWithJson f) ∧
      d'.success = ([] : List FName) ∧ d'.fail = ([] : List FName) :=
  c5_amended_restore ⟨[nmB, nmTxt], [nmA], [], []⟩ (by decide) (by decide)

/-- The `deleteJobOnSuccess` / `deleteJobOnFail` options (both default
`true`). -/
structure CleanOpts where
  deleteJobOnSuccess : Bool
  deleteJobOnFail : Bool
deriving DecidableEq, Repr

/-- `cleanJobFile`: after the worker loop, either `fs.remove` the job file
(when the delete option for the outcome is set) or `fs.move` it from
`current` into the terminal directory for the outcome, keeping the
basename.  `fs.move` (default `overwrite: false`) rejects if the
destination already holds a same-named file. -/
def cleanJobFile (opts : CleanOpts) (success : Bool) (f : FName) (d : Dirs) :
    Except FsErr Dirs :=
  let remove := if success then opts.deleteJobOnSuccess else opts.deleteJobOnFail
  if remove then
    .ok { d with current := d.current.erase f }
  else if success then
    if f ∈ d.success then .error .destExists
    else .ok { d with current := d.current.erase f, success := d.success ++ [f] }
  else
    if f ∈ d.fail then .error .destExists
    else .ok { d with current := d.current.erase f, fail := d.fail ++ [f] }

/-- **C8.** For a job reaching a terminal outcome with its file in the
running (`current`) directory: if the delete option for that outcome is
enabled the file is deleted (afterwards present in no directory);
otherwise it is moved into `success` (resp. `fail`) keeping its
filename, and the other terminal directory is untouched.  Either way the
pending and running directories no longer hold the file. -/
theorem c8_terminal_transition (opts : CleanOpts) (success : Bool) (f : FName)
    (d : Dirs) (hnd : d.current.Nodup)
    (hs : f ∉ d.success) (hx : f ∉ d.fail) (hi : f ∉ d.idle) :
    ∃ d', cleanJobFile opts success f d = .ok d' ∧
      f ∉ d'.current ∧ f ∉ d'.idle ∧
      ((if success then opts.deleteJobOnSuccess else opts.deleteJobOnFail) = true →
        f ∉ d'.success ∧ f ∉ d'.fail) ∧
      ((if success then opts.deleteJobOnSuccess else opts.deleteJobOnFail) = false →
        (success = true → d'.success = d.success ++ [f] ∧ d'.fail = d.fail) ∧
        (success = false → d'.fail = d.fail ++ [f] ∧ d'.success = d.success)) := by
  have hcur : f ∉ d.current.erase f := hnd.not_mem_erase
  cases success with
  | true =>
    cases hdel : opts.deleteJobOnSuccess with
    | true =>
      exact ⟨{ d with current := d.current.erase f }, by simp [cleanJobFile, hdel],
        hcur, hi, fun _ => ⟨hs, hx⟩, fun h => by simp [hdel] at h⟩
    | false =>
      exact ⟨{ d with current := d.current.erase f, success := d.success ++ [f] },
        by simp [cleanJobFile, hdel, hs], hcur, hi,
        fun h => by simp [hdel] at h,
        fun _ => ⟨fun _ => ⟨rfl, rfl⟩, fun h => by simp at h⟩⟩
  | false =>
    cases hdel : opts.deleteJobOnFail with
    | true =>
      exact ⟨{ d with current := d.current.erase f }, by simp [cleanJobFile, hdel],
        hcur, hi, fun _ => ⟨hs, hx⟩, fun h => by simp [hdel] at h⟩
    | false =>
      exact ⟨{ d with current := d.current.erase f, fail := d.fail ++ [f] },
        by simp [cleanJobFile, hdel, hx], hcur, hi,
        fun h => by simp [hdel] at h,
        fun _ => ⟨fun h => by simp at h, fun _ => ⟨rfl, rfl⟩⟩⟩

/-- Witness for C8: failed job, `deleteJobOnFail = false`, file moved to
the `fail` directory. -/
theorem c8_witness :
    ∃ d', cleanJobFile ⟨true, false⟩ false nmA ⟨[nmA], [], [], []⟩ = .ok d' ∧
      nmA ∉ d'.current ∧ nmA ∉ d'.idle ∧
      ((if false then true else false) = true → nmA ∉ d'.success ∧ nmA ∉ d'.fail) ∧
      ((if false then true else false) = false →
        (false = true → d'.success = [] ++ [nmA] ∧ d'.fail = ([] : List FName)) ∧
        (false = false → d'.fail = [] ++ [nmA] ∧ d'.success = ([] : List FName))) :=
  c8_terminal_transition ⟨true, false⟩ false nmA ⟨[nmA], [], [], []⟩
    (by decide) (by decide) (by decide) (by decide)

/-- Outcome of one `runJob` call: the worker loop never exits
(`diverge`), a filesystem operation rejected (`threw`, carrying the
directory state at the failure point — the exception propagates to
`runNextJob`'s catch), or the job reached a terminal outcome (`done`). -/
inductive RunRes
  | diverge
  | threw (d : Dirs) (e : FsErr)
  | done (d : Dirs) (success : Bool)
deriving DecidableEq, Repr

/-- Injectable filesystem faults for a single dispatch round: whether the
`fs.readdir` of the pending listing rejects, whether the `fs.move` of the
claimed file into `current` rejects, and whether the `fs.readJSON` of the
payload rejects. -/
structure FsEnv where
  listFails : Bool
  moveFails : Bool
  readFails : Bool
deriving DecidableEq, Repr

/-- Instance state of a `Kiwi` object: the `started` flag, the
`currentJob` single-flight guard, and the on-disk directories. -/
structure KState where
  started : Bool
  currentJob : Option FName
  dirs : Dirs
deriving DecidableEq, Repr

/-- `runJob job`: move the claimed file from `idle` into `current`
(rejecting faithfully to `fs.move` when the destination holds a same-named
file or the environment injects a fault), read the payload, run the worker
retry loop, then `cleanJobFile`.  Any rejection aborts the rest of the
body and propagates. -/
def runJobM (env : FsEnv) (w : Nat → Bool) (r : RetriesOpt) (fuel : Nat)
    (opts : CleanOpts) (f : FName) (d : Dirs) : RunRes :=
  if env.moveFails then .threw d .io
  else if f ∈ d.current then .threw d .destExists
  else if env.readFails then
    .threw { d with idle := d.idle.erase f, current := d.current ++ [f] } .io
  else
    match retryLoop w r fuel 0 0 with
    | none => .diverge
    | some (success, _, _) =>
      match cleanJobFile opts success f
          { d with idle := d.idle.erase f, current := d.current ++ [f] } with
      | .error e =>
        .threw { d with idle := d.idle.erase f, current := d.current ++ [f] } e
      | .ok d₂ => .done d₂ success

/-- `runNextJob`: the dispatch entry point.

```
if (!this.currentJob && this.started) {
  try {
    const job = await this.getNextJob();
    if (job) {
      this.currentJob = job;
      await this.runJob(job);
      this.currentJob = null;
    }
  } catch (e) { this.log('warning', 'Error while running job', e); }
}
```

Returns the new state and the emitted events; `none` models a call that
never returns (worker loop divergence).  All rejections from claiming or
running are caught here and logged; note that when `runJob` rejects after
`this.currentJob = job` has been assigned, the `this.currentJob = null`
reset is skipped. -/
def runNextJobM (env : FsEnv) (w : Nat → Bool) (r : RetriesOpt) (fuel : Nat)
    (opts : CleanOpts) (st : KState) : Option (KState × List Event) :=
  if st.currentJob = none ∧ st.started = true then
    if env.listFails then some (st, [Event.logWarn])
    else
      match getNextJobFilePath st.dirs.idle with
      | none => some (st, [])
      | some f =>
        match runJobM env w r fuel opts f st.dirs with
        | .diverge => none
        | .threw d _ => some (⟨st.started, some f, d⟩, [Event.logWarn])
        | .done d success =>
          some (⟨st.started, none, d⟩,
            (if success then [Event.jobSuccess] else [Event.jobFail]) ++ [Event.jobFinished])
  else some (st, [])

/-- **C6** (counterexample).  With the queue started, `a.json` pending and
an `fs.move` rejection while claiming: the error is caught and logged (no
crash), but `currentJob` keeps the claimed job because the
`this.currentJob = null` reset was skipped — so a second trigger, even with
a healthy filesystem and the job still pending, claims nothing and runs
nothing: the claim is not retried on the next trigger. -/
theorem c6_counterexample_no_retry_after_claimed_error :
    runNextJobM ⟨false, true, false⟩ (fun _ => true) (.num 3) 10 ⟨true, true⟩
        ⟨true, none, ⟨[], [nmA], [], []⟩⟩ =
      some (⟨true, some nmA, ⟨[], [nmA], [], []⟩⟩, [Event.logWarn]) ∧
      runNextJobM ⟨false, false, false⟩ (fun _ => true) (.num 3) 10 ⟨true, true⟩
          ⟨true, some nmA, ⟨[], [nmA], [], []⟩⟩ =
        some (⟨true, some nmA, ⟨[], [nmA], [], []⟩⟩, []) :=
  ⟨rfl, rfl⟩

/-- **C6** (amended).  Errors thrown while claiming or transitioning a job
file are caught at the dispatch-loop level and logged, and the loop call
returns normally instead of propagating them.  If the listing of the
pending directory fails the state is unchanged, so the claim is retried on
the next trigger (which then claims and runs work); but if the error
occurs after the job was claimed (e.g. the move into `running`),
`currentJob` remains set and every later trigger on this instance returns
without claiming, so the job is not retried until a process restart. -/
theorem c6_amended_errors_caught_at_loop (w : Nat → Bool) (r : RetriesOpt)
    (fuel : Nat) (opts : CleanOpts) (st : KState) (f : FName) (mf rf : Bool)
    (env' : FsEnv) (w' : Nat → Bool) (r' : RetriesOpt) (fuel' : Nat)
    (opts' : CleanOpts) (st' : KState)
    (hc : st.currentJob = none) (hs : st.started = true)
    (hnext : getNextJobFilePath st.dirs.idle = some f)
    (hw : w 0 = true) (hcur : f ∉ st.dirs.current)
    (hne : st'.currentJob ≠ none) :
    runNextJobM ⟨true, mf, rf⟩ w r fuel opts st = some (st, [Event.logWarn]) ∧
      (∃ d', runNextJobM ⟨false, false, false⟩ w r (fuel + 1) ⟨true, true⟩ st =
        some (⟨st.started, none, d'⟩, [Event.jobSuccess, Event.jobFinished])) ∧
      runNextJobM ⟨false, true, false⟩ w r fuel opts st =
        some (⟨st.started, some f, st.dirs⟩, [Event.logWarn]) ∧
      runNextJobM env' w' r' fuel' opts' st' = some (st', []) := by
  refine ⟨?_, ?_, ?_, ?_⟩
  · rw [runNextJobM, if_pos ⟨hc, hs⟩, if_pos rfl]
  · refine ⟨⟨(st.dirs.current ++ [f]).erase f, st.dirs.idle.erase f,
      st.dirs.success, st.dirs.fail⟩, ?_⟩
    have hloop : retryLoop w r (fuel + 1) 0 0 = some (true, 0, 1) := by
      rw [retryLoop, if_pos hw]
    have hrun : runJobM ⟨false, false, false⟩ w r (fuel + 1) ⟨true, true⟩ f st.dirs =
        .done ⟨(st.dirs.current ++ [f]).erase f, st.dirs.idle.erase f,
          st.dirs.success, st.dirs.fail⟩ true := by
      rw [runJobM, if_neg (by decide), if_neg hcur, if_neg (by decide), hloop]
      rfl
    rw [runNextJobM, if_pos ⟨hc, hs⟩, if_neg (by decide)]
    simp [hnext, hrun]
  · have hrun : runJobM ⟨false, true, false⟩ w r fuel opts f st.dirs =
        .threw st.dirs .io := by
      rw [runJobM, if_pos rfl]
    rw [runNextJobM, if_pos ⟨hc, hs⟩, if_neg (by decide)]
    simp only [hnext, hrun]
  · rw [runNextJobM, if_neg (fun h => hne h.1)]

/-- Witness for the amended C6 with `b.json` pending, and a second stuck
instance state holding `a.json` as its current job. -/
theorem c6_amended_witness :
    runNextJobM ⟨true, false, false⟩ (fun _ => true) (.num 3) 5 ⟨true, true⟩
        ⟨true, none, ⟨[], [nmB], [], []⟩⟩ =
      some (⟨true, none, ⟨[], [nmB], [], []⟩⟩, [Event.logWarn]) ∧
      (∃ d', runNextJobM ⟨false, false, false⟩ (fun _ => true) (.num 3) (5 + 1) ⟨true, true⟩
          ⟨true, none, ⟨[], [nmB], [], []⟩⟩ =
        some (⟨true, none, d'⟩, [Event.jobSuccess, Event.jobFinished])) ∧
      runNextJobM ⟨false, true, false⟩ (fun _ => true) (.num 3) 5 ⟨true, true⟩
          ⟨true, none, ⟨[], [nmB], [], []⟩⟩ =
        some (⟨true, some nmB, ⟨[], [nmB], [], []⟩⟩, [Event.logWarn]) ∧
      runNextJobM ⟨false, false, false⟩ (fun _ => true) (.num 3) 5 ⟨true, true⟩
          ⟨true, some nmA, ⟨[], [], [], []⟩⟩ =
        some (⟨true, some nmA, ⟨[], [], [], []⟩⟩, []) :=
  c6_amended_errors_caught_at_loop (fun _ => true) (.num 3) 5 ⟨true, true⟩
    ⟨true, none, ⟨[], [nmB], [], []⟩⟩ nmB false false
    ⟨false, false, false⟩ (fun _ => true) (.num 3) 5 ⟨true, true⟩
    ⟨true, some nmA, ⟨[], [], [], []⟩⟩
    rfl rfl rfl rfl (by decide) (by decide)

/-- Errors surfaced by `add`: the allocator's
`new Error('Unable to find unique file name !')`, or a rejection of
`fs.writeJSON` (e.g. `ENOENT` when the queue directories were never
created). -/
inductive AddErr
  | allocExhausted
  | writeFs
deriving DecidableEq, Repr

/-- The collision-retry loop of `getUniqueFilename`:

```
do {
  i++; Kiwi.fileId++;
  filename = join(idlePath, timestamp + padded(Kiwi.fileId) + '.json');
  exist = await fs.pathExists(filename);
} while (exist && i < 100);
if (exist) throw new Error('Unable to find unique file name !');
```

`ex` is the `fs.pathExists` oracle, `t` the (fixed) timestamp code units,
`fid` the current value of the shared counter, `budget` the remaining
attempts (100 at entry).  Returns the new counter value and the allocated
name or the exhaustion error. -/
def allocGo (ex : FName → Bool) (t : List Nat) : Nat → Nat → Nat × Except AddErr FName
  | fid, 0 => (fid, .error .allocExhausted)
  | fid, budget + 1 =>
    if ex (allocName t (fid + 1)) then
      if budget = 0 then (fid + 1, .error .allocExhausted)
      else allocGo ex t (fid + 1) budget
    else (fid + 1, .ok (allocName t (fid + 1)))

/-- `getUniqueFilename`: the retry loop with the bound `i < 100`. -/
def getUniqueFilename (ex : FName → Bool) (t : List Nat) (fid : Nat) :
    Nat × Except AddErr FName :=
  allocGo ex t fid 100

/-- `add(data)`: allocate a name, then `fs.writeJSON` the payload to it.
Neither step creates the queue directories (`dirsExist` is returned
unchanged); the write rejects when they do not exist.  Errors from either
step propagate to the caller — `add` has no try/catch. -/
def add (ex : FName → Bool) (dirsExist : Bool) (t : List Nat) (fid : Nat) :
    Nat × Bool × Except AddErr Unit :=
  match getUniqueFilename ex t fid with
  | (fid', .error e) => (fid', dirsExist, .error e)
  | (fid', .ok _) =>
    if dirsExist then (fid', dirsExist, .ok ()) else (fid', dirsExist, .error .writeFs)

/-- `_init` (directory side only): `mkdirp` every queue directory, so the
directories exist afterwards; `init` memoizes it, `start` and `clear`
call `init` first. -/
def initDirs (_dirsExist : Bool) : Bool := true

theorem allocGo_all_exist (ex : FName → Bool) (t : List Nat)
    (hex : ∀ c, ex c = true) :
    ∀ (budget fid : Nat), 0 < budget →
      allocGo ex t fid budget = (fid + budget, .error .allocExhausted) := by
  intro budget
  induction budget with
  | zero => omega
  | succ budget ih =>
    intro fid _
    rw [allocGo, if_pos (hex _)]
    cases hb : budget with
    | zero => rw [if_pos rfl]
    | succ b =>
      rw [if_neg (by omega)]
      rw [← hb, ih (fid + 1) (by omega)]
      rw [Prod.mk.injEq]
      exact ⟨by omega, rfl⟩

/-- **C7** (counterexample).  On a fresh queue whose directories do not
exist, allocation succeeds on the first attempt (no file can exist) but
the `fs.writeJSON` rejects, and `add` surfaces that rejection — an error
other than allocation exhaustion reaches the `add` caller, refuting "this
error is the only one surfaced synchronously to the caller". -/
theorem c7_counterexample_write_error_also_surfaces :
    add (fun _ => false) false tsEx 0 = (1, false, .error .writeFs) ∧
      AddErr.writeFs ≠ AddErr.allocExhausted := by
  exact ⟨rfl, by decide⟩

/-- **C7** (amended).  Filename allocation retries at most 100 attempts
(the counter advances by exactly 100) when every candidate name already
exists, then fails with the allocation-exhausted error, and `add` rejects
with that error (it installs no handler).  However, it is not the only
error surfaced to the `add` caller: a failing payload write also rejects
(see the counterexample). -/
theorem c7_amended_allocation_bounded_and_surfaced (ex : FName → Bool)
    (t : List Nat) (fid : Nat) (de : Bool) (hex : ∀ c, ex c = true) :
    getUniqueFilename ex t fid = (fid + 100, .error .allocExhausted) ∧
      add ex de t fid = (fid + 100, de, .error .allocExhausted) := by
  have h := allocGo_all_exist ex t hex 100 fid (by omega)
  refine ⟨h, ?_⟩
  rw [add, getUniqueFilename, h]

/-- Witness for the amended C7: every path exists, the counter advances
from 0 to 100 and `add` rejects with the exhaustion error. -/
theorem c7_amended_witness :
    getUniqueFilename (fun _ => true) tsEx 0 = (0 + 100, .error .allocExhausted) ∧
      add (fun _ => true) true tsEx 0 = (0 + 100, true, .error .allocExhausted) :=
  c7_amended_allocation_bounded_and_surfaced (fun _ => true) tsEx 0 true (fun _ => rfl)

/-- **C9.** `add` never creates the queue directories: whatever their
state, it leaves it unchanged, and on a fresh queue (directories absent,
hence no candidate file exists and the payload write rejects with a
filesystem error) `add` rejects with that write error.  Directory creation
happens only through `_init` (reached via `init`, `start` or `clear`). -/
theorem c9_add_does_not_create_directories (ex : FName → Bool) (t : List Nat)
    (fid : Nat) (de : Bool) (hex : ∀ c, ex c = false) :
    (add ex de t fid).2.1 = de ∧
      add ex false t fid = (fid + 1, false, .error .writeFs) ∧
      initDirs false = true := by
  have halloc : getUniqueFilename ex t fid = (fid + 1, .ok (allocName t (fid + 1))) := by
    rw [getUniqueFilename, allocGo, if_neg (by simp [hex])]
  refine ⟨?_, ?_, rfl⟩
  · rw [add, halloc]
    cases de <;> rfl
  · rw [add, halloc]
    rfl

/-- Witness for C9 on a fresh queue. -/
theorem c9_witness :
    (add (fun _ => false) true tsEx 0).2.1 = true ∧
      add (fun _ => false) false tsEx 0 = (0 + 1, false, .error .writeFs) ∧
      initDirs false = true :=
  c9_add_does_not_create_directories (fun _ => false) tsEx 0 true (fun _ => rfl)

/-- Process-wide state shared by all `Kiwi` instances: the class-level
(`static`) members `fileId` and `runJobMutex`, plus, per instance
(`Fin 2` for two instances, possibly rooted at different directories),
whether that instance is currently executing a job in `runJob`, and the
log of (instance, counter value) pairs consumed by `getUniqueFilename`. -/
structure Proc where
  fileId : Nat
  runHeld : Option (Fin 2)
  executing : Fin 2 → Bool
  allocs : List (Fin 2 × Nat)

/-- Interleaved steps of two `Kiwi` instances in one process: instance `i`
allocates a filename (incrementing the single `static` counter), or enters
`runJob` (acquiring the single `static` `runJobMutex`, available only when
no instance holds it), or leaves `runJob` (releasing it). -/
inductive PStep : Proc → Proc → Prop
  | alloc (i : Fin 2) (p : Proc) :
    PStep p { p with fileId := p.fileId + 1, allocs := p.allocs ++ [(i, p.fileId + 1)] }
  | beginRun (i : Fin 2) (p : Proc) (h : p.runHeld = none) :
    PStep p { p with runHeld := some i, executing := Function.update p.executing i true }
  | endRun (i : Fin 2) (p : Proc) (h : p.runHeld = some i) :
    PStep p { p with runHeld := none, executing := Function.update p.executing i false }

/-- Initial process state: counter at `c`, mutex free, nothing running. -/
def initProc (c : Nat) : Proc := ⟨c, none, fun _ => false, []⟩

/-- Process states reachable by interleaving the two instances. -/
inductive ReachP (c : Nat) : Proc → Prop
  | init : ReachP c (initProc c)
  | step {p q} : ReachP c p → PStep p q → ReachP c q

theorem reachP_inv (c : Nat) : ∀ p, ReachP c p →
    (∀ i, p.executing i = true → p.runHeld = some i) ∧
      (p.allocs.map Prod.snd).Pairwise (· < ·) ∧
      (∀ n ∈ p.allocs.map Prod.snd, n ≤ p.fileId) := by
  intro p hp
  induction hp with
  | init => exact ⟨fun i h => by simp [initProc] at h, by simp [initProc], by simp [initProc]⟩
  | step hr hs ih =>
    obtain ⟨ih1, ih2, ih3⟩ := ih
    cases hs with
    | alloc i p =>
      dsimp only
      refine ⟨ih1, ?_, ?_⟩
      · simp only [List.map_append, List.map_cons, List.map_nil]
        rw [List.pairwise_append]
        refine ⟨ih2, by simp, ?_⟩
        intro a ha b hb
        simp only [List.mem_singleton] at hb
        subst hb
        have := ih3 a ha
        omega
      · intro n hn
        simp only [List.map_append, List.map_cons, List.map_nil, List.mem_append,
          List.mem_singleton] at hn
        rcases hn with hn | hn
        · have := ih3 n hn; omega
        · omega
    | beginRun i p h =>
      dsimp only
      refine ⟨?_, ih2, ih3⟩
      intro j hj
      by_cases hij : j = i
      · subst hij; rfl
      · rw [Function.update_noteq hij] at hj
        have := ih1 j hj
        rw [h] at this
        cases this
    | endRun i p h =>
      dsimp only
      refine ⟨?_, ih2, ih3⟩
      intro j hj
      by_cases hij : j = i
      · subst hij
        rw [Function.update_same] at hj
        cases hj
      · rw [Function.update_noteq hij] at hj
        have := ih1 j hj
        rw [h] at this
        exact absurd (Option.some.inj this).symm hij

/-- **C10.** The dispatch mutex and the filename counter are class-level
statics shared by every `Kiwi` instance in the process: in every reachable
interleaving of two instances (even with different root directories), at
most one job executes at a time across both instances, and the counter
values drawn by all their filename allocations form a single strictly
increasing sequence. -/
theorem c10_statics_shared_across_instances (c : Nat) (p : Proc)
    (hp : ReachP c p) :
    ¬(p.executing 0 = true ∧ p.executing 1 = true) ∧
      (p.allocs.map Prod.snd).Pairwise (· < ·) := by
  obtain ⟨h1, h2, _⟩ := reachP_inv c p hp
  refine ⟨?_, h2⟩
  rintro ⟨he0, he1⟩
  have h0 := h1 0 he0
  have h1' := h1 1 he1
  rw [h0] at h1'
  exact absurd (Option.some.inj h1') (by decide)

/-- Witness for C10: instance 0 allocates, instance 1 allocates, then
instance 1 acquires the run mutex. -/
theorem c10_witness :
    ¬((Function.update (fun _ : Fin 2 => false) 1 true) 0 = true ∧
        (Function.update (fun _ : Fin 2 => false) 1 true) 1 = true) ∧
      (([((0 : Fin 2), 1), ((1 : Fin 2), 2)] : List (Fin 2 × Nat)).map Prod.snd).Pairwise
        (· < ·) :=
  c10_statics_shared_across_instances 0
    ⟨2, some 1, Function.update (fun _ => false) 1 true, [(0, 1), (1, 2)]⟩
    (ReachP.step
      (ReachP.step (ReachP.step ReachP.init (PStep.alloc 0 _)) (PStep.alloc 1 _))
      (PStep.beginRun 1 _ rfl))
